import Mathlib

/-!
Shallow embedding of the constrained directional shortest-path search of the
Anxiko/aoc2023 repository (`src/day17.py`, `src/shared/coord.py`,
`src/shared/grid.py`), together with proofs about it.

The Python machine integers are modelled as `Int`/`Nat` (no overflow is
possible in the source: costs are single digit cells summed along finitely
many steps).  Fallible operations (`IndexError`, `ValueError`) are modelled
with `Option` and an explicit result type.  The Python `State` also carries
the two search-constant fields `_end_pos` and `_ultra_crucible`; every state
of one search holds the same values for them, so they are lifted to explicit
parameters of the operations below.
-/

namespace Day17

/-- Embedding of `shared.coord.Coord`: a pair of integer coordinates. -/
structure Coord where
  x : Int
  y : Int
deriving DecidableEq

/-- Embedding of `Coord.at_origin`. -/
def Coord.at_origin : Coord := ⟨0, 0⟩

/-- Embedding of `Coord.__add__`. -/
def Coord.add (a b : Coord) : Coord := ⟨a.x + b.x, a.y + b.y⟩

/-- Embedding of `Coord.__sub__`. -/
def Coord.sub (a b : Coord) : Coord := ⟨a.x - b.x, a.y - b.y⟩

/-- Embedding of `Coord.__neg__`. -/
def Coord.neg (a : Coord) : Coord := ⟨-a.x, -a.y⟩

instance : Add Coord := ⟨Coord.add⟩

instance : Sub Coord := ⟨Coord.sub⟩

/-- Embedding of `Coord.manhattan`. -/
def Coord.manhattan (a : Coord) : Nat := a.x.natAbs + a.y.natAbs

/-- Embedding of `shared.coord.Direction`, an `IntEnum` with values
`East = 0`, `North = 1`, `West = 2`, `South = 3`. -/
inductive Direction where
  | east
  | north
  | west
  | south
deriving DecidableEq, Fintype

/-- Numeric value of a `Direction`, as in the Python `IntEnum`. -/
def Direction.val : Direction → Int
  | .east => 0
  | .north => 1
  | .west => 2
  | .south => 3

/-- Embedding of `Direction.from_angle`: the direction whose value is `angle % 4`. -/
def Direction.from_angle (angle : Int) : Direction :=
  if angle % 4 = 0 then .east
  else if angle % 4 = 1 then .north
  else if angle % 4 = 2 then .west
  else .south

/-- Embedding of `Direction.rotate`: `Direction((value + rotation) % 4)`. -/
def Direction.rotate (d : Direction) (rotation : Int) : Direction :=
  Direction.from_angle (d.val + rotation)

/-- Embedding of `Direction.to_delta`, via the `_DIRECTION_TO_COORD` table. -/
def Direction.to_delta : Direction → Coord
  | .north => ⟨0, -1⟩
  | .south => ⟨0, 1⟩
  | .west => ⟨-1, 0⟩
  | .east => ⟨1, 0⟩

/-- Embedding of `Direction.__neg__`: rotation by two quarter turns. -/
def Direction.neg (d : Direction) : Direction := d.rotate 2

/-- Embedding of `shared.grid.Grid`: the constructor stores the given rows as
they are, without any validation. -/
structure Grid (α : Type) where
  rows : List (List α)
deriving DecidableEq

/-- Embedding of the `Grid.width` property: the length of the first row
(`0` for an empty grid). -/
def Grid.width {α : Type} (g : Grid α) : Nat :=
  match g.rows with
  | [] => 0
  | row :: _ => row.length

/-- Embedding of the `Grid.height` property. -/
def Grid.height {α : Type} (g : Grid α) : Nat := g.rows.length

/-- Embedding of `Grid.is_valid_coord`. -/
def Grid.is_valid_coord {α : Type} (g : Grid α) (c : Coord) : Bool :=
  decide (0 ≤ c.x ∧ c.x < (g.width : Int) ∧ 0 ≤ c.y ∧ c.y < (g.height : Int))

/-- Embedding of `Grid.__getitem__`.  Python raises `IndexError` for an invalid
coordinate (and also when a ragged row is shorter than the first row); both
failures are the `none` here. -/
def Grid.get {α : Type} (g : Grid α) (c : Coord) : Option α :=
  if g.is_valid_coord c then (g.rows.get? c.y.toNat).bind (fun row => row.get? c.x.toNat)
  else none

/-- Embedding of `Grid.from_raw_lines`, with the raw lines already split into
their characters. -/
def Grid.from_raw_lines {α : Type} (lines : List (List Char)) (tile : Char → α) : Grid α :=
  ⟨lines.map (fun line => line.map tile)⟩

/-- Value of a digit character, the `int` tile parse of `Day17._parse_input`. -/
def digit_value (c : Char) : Nat := c.toNat - '0'.toNat

/-- Embedding of `_MAX_REGULAR_STRAIGHT_LINE`. -/
def MAX_REGULAR_STRAIGHT_LINE : Nat := 3

/-- Embedding of `_MIN_ULTRA_STRAIGHT_LINE`. -/
def MIN_ULTRA_STRAIGHT_LINE : Nat := 4

/-- Embedding of `_MAX_ULTRA_STRAIGHT_LINE`. -/
def MAX_ULTRA_STRAIGHT_LINE : Nat := 10

/-- Maximum straight run of the chosen mode, as selected in `_move_in_direction`. -/
def max_straight_line (ultra_crucible : Bool) : Nat :=
  if ultra_crucible then MAX_ULTRA_STRAIGHT_LINE else MAX_REGULAR_STRAIGHT_LINE

/-- Embedding of `day17.State`, without the lifted search-constant fields
`_end_pos` and `_ultra_crucible` (see the module docstring). -/
structure State where
  pos : Coord
  cost : Nat
  last_direction : Option Direction
  repeated_last_direction : Nat
deriving DecidableEq

/-- Configuration key of a state: position, last direction and run length. -/
abbrev Key := Coord × Option Direction × Nat

/-- Embedding of `State.initial`: the origin, cost `0`, no last direction,
run length `0`.  The `_end_pos` it also sets is `end_pos_of grid` below. -/
def State.initial : State := ⟨Coord.at_origin, 0, none, 0⟩

/-- End position of a search over `grid`: `Coord(grid.width - 1, grid.height - 1)`. -/
def end_pos_of (g : Grid Nat) : Coord := ⟨(g.width : Int) - 1, (g.height : Int) - 1⟩

/-- Embedding of `State.seen_key`. -/
def State.seen_key (s : State) : Key := (s.pos, s.last_direction, s.repeated_last_direction)

/-- Embedding of `State._move_in_direction`.  The `IndexError` caught by the
Python code is the `none` of `Grid.get`. -/
def State.move_in_direction (grid : Grid Nat) (ultra_crucible : Bool) (s : State)
    (direction : Direction) : Option State :=
  let newRun : Option Nat :=
    if some direction = s.last_direction then
      if s.repeated_last_direction + 1 > max_straight_line ultra_crucible then none
      else some (s.repeated_last_direction + 1)
    else if ultra_crucible = true ∧ s.last_direction.isSome = true ∧
        s.repeated_last_direction < MIN_ULTRA_STRAIGHT_LINE then none
    else some 1
  match newRun with
  | none => none
  | some r =>
    let new_position := s.pos + direction.to_delta
    match grid.get new_position with
    | none => none
    | some added_cost => some ⟨new_position, s.cost + added_cost, some direction, r⟩

/-- Candidate directions of `State.neighbours`: all four when `last_direction`
is `None`, otherwise the rotations of the last direction by `-1`, `0` and `1`. -/
def State.possible_directions (s : State) : List Direction :=
  match s.last_direction with
  | none => [.east, .north, .west, .south]
  | some d => [d.rotate (-1), d.rotate 0, d.rotate 1]

/-- Embedding of `State.neighbours`: move in every candidate direction and keep
the moves that succeed (`filter(is_not_none, map(..., possible_directions))`). -/
def State.neighbours (grid : Grid Nat) (ultra_crucible : Bool) (s : State) : List State :=
  s.possible_directions.filterMap (s.move_in_direction grid ultra_crucible)

/-- Embedding of `State._heuristic`: Manhattan distance to the end position. -/
def State.heuristic (end_pos : Coord) (s : State) : Nat := (end_pos - s.pos).manhattan

/-- Embedding of the `State.estimate` property. -/
def State.estimate (end_pos : Coord) (s : State) : Nat := s.cost + s.heuristic end_pos

/-- Embedding of `State.__eq__`: equality of estimates. -/
def State.eq (end_pos : Coord) (s other : State) : Bool :=
  decide (s.estimate end_pos = other.estimate end_pos)

/-- Embedding of `State.__lt__`. -/
def State.lt (end_pos : Coord) (s other : State) : Bool :=
  decide (s.estimate end_pos < other.estimate end_pos)

/-- Embedding of `State.is_end_state`. -/
def State.is_end_state (end_pos : Coord) (ultra_crucible : Bool) (s : State) : Bool :=
  decide (s.pos = end_pos) &&
    (!ultra_crucible || decide (MIN_ULTRA_STRAIGHT_LINE ≤ s.repeated_last_direction))

/-- Selection of a minimum-estimate state from the frontier, modelling
`heapq.heappop` under the estimate-only `__lt__` order of `State` (tie-breaking
among equal estimates is arbitrary in the heap and not observable through the
returned cost). -/
def pop_min (end_pos : Coord) : List State → Option (State × List State)
  | [] => none
  | s :: rest =>
    match pop_min end_pos rest with
    | none => some (s, [])
    | some (m, rest') =>
      if s.estimate end_pos ≤ m.estimate end_pos then some (s, rest)
      else some (m, s :: rest')

/-- Result of the search: `found c` models returning `state.cost`, `no_path`
models the raised `ValueError("Failed to find a path")`, and `out_of_fuel` is
an artefact of the explicit recursion bound, proved unreachable below for the
bound `shortest_path` uses. -/
inductive SearchResult where
  | found (cost : Nat)
  | no_path
  | out_of_fuel
deriving DecidableEq

/-- Embedding of the loop of `day17.shortest_path`, with an explicit recursion
bound: pop a minimum-estimate state, return its cost if it is an end state,
skip it if its key was already seen, and otherwise record it as seen and push
its neighbours. -/
def search_loop (grid : Grid Nat) (ultra_crucible : Bool) (end_pos : Coord) :
    Nat → List State → List Key → SearchResult
  | 0, _, _ => .out_of_fuel
  | fuel + 1, open_states, seen_states =>
    match pop_min end_pos open_states with
    | none => .no_path
    | some (state, rest) =>
      if state.is_end_state end_pos ultra_crucible then .found state.cost
      else if state.seen_key ∈ seen_states then
        search_loop grid ultra_crucible end_pos fuel rest seen_states
      else
        search_loop grid ultra_crucible end_pos fuel
          (rest ++ state.neighbours grid ultra_crucible) (state.seen_key :: seen_states)

/-- Recursion bound sufficient for the search to run to completion, proved
below: five times a bound on the number of distinct configuration keys, plus
slack for the initial state. -/
def fuel_bound (grid : Grid Nat) (ultra_crucible : Bool) : Nat :=
  5 * (grid.width * grid.height * 4 * max_straight_line ultra_crucible + 1) + 2

/-- Embedding of `day17.shortest_path`. -/
def shortest_path (grid : Grid Nat) (ultra_crucible : Bool) : SearchResult :=
  search_loop grid ultra_crucible (end_pos_of grid) (fuel_bound grid ultra_crucible)
    [State.initial] []

/-- One expansion step: `t` is among the successors produced for `s`. -/
def Step (grid : Grid Nat) (ultra_crucible : Bool) (s t : State) : Prop :=
  t ∈ s.neighbours grid ultra_crucible

/-- States reachable from the initial state through the expansion rule. -/
def Reaches (grid : Grid Nat) (ultra_crucible : Bool) (t : State) : Prop :=
  Relation.ReflTransGen (Step grid ultra_crucible) State.initial t

/-- Costs of reachable end states: the costs of the valid routes of the search. -/
def goal_costs (grid : Grid Nat) (ultra_crucible : Bool) : Set Nat :=
  {c | ∃ t, Reaches grid ultra_crucible t ∧
    t.is_end_state (end_pos_of grid) ultra_crucible = true ∧ t.cost = c}

/-! Basic inversion lemmas about the expansion rule. -/

/-- Successful grid accesses are in bounds: `Grid.get` answers `some` only for
coordinates that pass `is_valid_coord`. -/
theorem Grid.get_some_valid {α : Type} {g : Grid α} {c : Coord} {v : α}
    (h : g.get c = some v) : g.is_valid_coord c = true := by
  cases hvc : g.is_valid_coord c
  · rw [Grid.get, hvc] at h
    simp at h
  · rfl

/-- Membership in `State.neighbours` unfolded to a candidate direction whose
move succeeds. -/
theorem State.mem_neighbours {grid : Grid Nat} {ultra_crucible : Bool} {s t : State} :
    t ∈ s.neighbours grid ultra_crucible ↔
    ∃ d ∈ s.possible_directions, s.move_in_direction grid ultra_crucible d = some t := by
  simp [State.neighbours, List.mem_filterMap]

/-- Characterisation of a successful `move_in_direction`: the run-length rule
admits the direction (straight moves bounded by the maximum run, turns blocked
in extended mode before the minimum run), the new position is on the grid, and
the successor is built from the new position, added cost, direction and run. -/
theorem State.move_in_direction_eq_some {grid : Grid Nat} {ultra_crucible : Bool}
    {s t : State} {direction : Direction} :
    s.move_in_direction grid ultra_crucible direction = some t ↔
    ∃ r : Nat,
      (if some direction = s.last_direction then
        s.repeated_last_direction + 1 ≤ max_straight_line ultra_crucible ∧
          r = s.repeated_last_direction + 1
      else
        ¬(ultra_crucible = true ∧ s.last_direction.isSome = true ∧
            s.repeated_last_direction < MIN_ULTRA_STRAIGHT_LINE) ∧ r = 1) ∧
      ∃ added_cost : Nat, grid.get (s.pos + direction.to_delta) = some added_cost ∧
        t = ⟨s.pos + direction.to_delta, s.cost + added_cost, some direction, r⟩ := by
  simp only [State.move_in_direction]
  by_cases h1 : some direction = s.last_direction
  · rw [if_pos h1]
    by_cases h2 : s.repeated_last_direction + 1 > max_straight_line ultra_crucible
    · rw [if_pos h2]
      constructor
      · intro h
        cases h
      · rintro ⟨r, hr, -⟩
        rw [if_pos h1] at hr
        exact absurd hr.1 (by omega)
    · rw [if_neg h2]
      cases hg : grid.get (s.pos + direction.to_delta) with
      | none =>
        dsimp only
        constructor
        · intro h
          cases h
        · rintro ⟨r, -, ac, hac, -⟩
          cases hac
      | some v =>
        dsimp only
        constructor
        · intro h
          cases h
          exact ⟨s.repeated_last_direction + 1, by rw [if_pos h1]; exact ⟨by omega, rfl⟩,
            v, rfl, rfl⟩
        · rintro ⟨r, hr, ac, hac, ht⟩
          rw [if_pos h1] at hr
          cases hac
          rw [ht, hr.2]
  · rw [if_neg h1]
    by_cases h2 : ultra_crucible = true ∧ s.last_direction.isSome = true ∧
        s.repeated_last_direction < MIN_ULTRA_STRAIGHT_LINE
    · rw [if_pos h2]
      constructor
      · intro h
        cases h
      · rintro ⟨r, hr, -⟩
        rw [if_neg h1] at hr
        exact absurd h2 hr.1
    · rw [if_neg h2]
      cases hg : grid.get (s.pos + direction.to_delta) with
      | none =>
        dsimp only
        constructor
        · intro h
          cases h
        · rintro ⟨r, -, ac, hac, -⟩
          cases hac
      | some v =>
        dsimp only
        constructor
        · intro h
          cases h
          exact ⟨1, by rw [if_neg h1]; exact ⟨h2, rfl⟩, v, rfl, rfl⟩
        · rintro ⟨r, hr, ac, hac, ht⟩
          rw [if_neg h1] at hr
          cases hac
          rw [ht, hr.2]


/-- Rotation by zero is the identity on directions. -/
theorem Direction.rotate_zero (d : Direction) : d.rotate 0 = d := by
  cases d <;> rfl

/-- C2: the successor set of a state is exactly as specified.  When
`last_direction` is `None` all four headings are candidates, otherwise only
the two 90° rotations and continue-straight — never the reversal.
Continue-straight is rejected when the incremented run would exceed the
maximum straight run and otherwise increments the run; a turn is rejected in
extended mode when a last heading exists and the run is below the minimum
straight run, and otherwise yields run length 1.  Off-grid candidate
positions are discarded, and each surviving successor costs the state's cost
plus the grid cost of the new position. -/
theorem claim2_expansion_rule (grid : Grid Nat) (ultra_crucible : Bool) (s t : State) :
    t ∈ s.neighbours grid ultra_crucible ↔
    ∃ direction : Direction,
      (match s.last_direction with
       | none => True
       | some last => (direction = last.rotate (-1) ∨ direction = last ∨
           direction = last.rotate 1) ∧ direction ≠ Direction.neg last) ∧
      ∃ r : Nat,
        (if some direction = s.last_direction then
          s.repeated_last_direction + 1 ≤ max_straight_line ultra_crucible ∧
            r = s.repeated_last_direction + 1
        else
          ¬(ultra_crucible = true ∧ s.last_direction.isSome = true ∧
              s.repeated_last_direction < MIN_ULTRA_STRAIGHT_LINE) ∧ r = 1) ∧
        ∃ added_cost : Nat, grid.get (s.pos + direction.to_delta) = some added_cost ∧
          t = ⟨s.pos + direction.to_delta, s.cost + added_cost, some direction, r⟩ := by
  rw [State.mem_neighbours]
  simp only [State.move_in_direction_eq_some]
  cases hld : s.last_direction with
  | none =>
    simp only [State.possible_directions, hld]
    refine exists_congr fun d => and_congr_left fun _ => ?_
    refine ⟨fun _ => trivial, fun _ => ?_⟩
    cases d <;> decide
  | some last =>
    simp only [State.possible_directions, hld]
    refine exists_congr fun d => and_congr_left fun _ => ?_
    cases last <;> cases d <;> decide

/-! Properties of the frontier pop. -/

/-- Popping fails exactly on the empty frontier. -/
theorem pop_min_eq_none {end_pos : Coord} {F : List State} :
    pop_min end_pos F = none ↔ F = [] := by
  cases F with
  | nil => simp [pop_min]
  | cons s rest =>
    rw [pop_min]
    cases pop_min end_pos rest with
    | none => simp
    | some p =>
      obtain ⟨m, rest'⟩ := p
      by_cases h : s.estimate end_pos ≤ m.estimate end_pos <;> simp [h]

/-- Popping removes one element: the frontier is a permutation of the popped
state consed onto the remainder. -/
theorem pop_min_perm {end_pos : Coord} {F rest : List State} {u : State}
    (h : pop_min end_pos F = some (u, rest)) : F.Perm (u :: rest) := by
  induction F generalizing u rest with
  | nil => cases h
  | cons s tail ih =>
    rw [pop_min] at h
    cases hp : pop_min end_pos tail with
    | none =>
      rw [hp] at h
      cases h
      rw [pop_min_eq_none.mp hp]
    | some p =>
      obtain ⟨m, rest'⟩ := p
      rw [hp] at h
      dsimp only at h
      by_cases hle : s.estimate end_pos ≤ m.estimate end_pos
      · rw [if_pos hle] at h
        cases h
        rfl
      · rw [if_neg hle] at h
        cases h
        exact List.Perm.trans ((ih hp).cons s) (List.Perm.swap u s rest')

/-- The popped state has the least estimate of the frontier. -/
theorem pop_min_le {end_pos : Coord} {F rest : List State} {u : State}
    (h : pop_min end_pos F = some (u, rest)) :
    ∀ v ∈ F, u.estimate end_pos ≤ v.estimate end_pos := by
  induction F generalizing u rest with
  | nil => cases h
  | cons s tail ih =>
    rw [pop_min] at h
    cases hp : pop_min end_pos tail with
    | none =>
      rw [hp] at h
      cases h
      intro v hv
      rcases List.mem_cons.mp hv with hv | hv
      · rw [hv]
      · rw [pop_min_eq_none.mp hp] at hv
        cases hv
    | some p =>
      obtain ⟨m, rest'⟩ := p
      rw [hp] at h
      dsimp only at h
      by_cases hle : s.estimate end_pos ≤ m.estimate end_pos
      · rw [if_pos hle] at h
        cases h
        intro v hv
        rcases List.mem_cons.mp hv with hv | hv
        · rw [hv]
        · exact le_trans hle (ih hp v hv)
      · rw [if_neg hle] at h
        cases h
        intro v hv
        rcases List.mem_cons.mp hv with hv | hv
        · rw [hv]
          omega
        · exact ih hp v hv

/-! Finiteness of the configuration space, for termination. -/

/-- Coordinates passing `is_valid_coord`, as a finite set. -/
def valid_coords (grid : Grid Nat) : Finset Coord :=
  (Finset.range grid.width ×ˢ Finset.range grid.height).image
    (fun p => ⟨(p.1 : Int), (p.2 : Int)⟩)

/-- Finite set containing every configuration key the search can encounter:
the initial key, and every key with an in-bounds position, a present last
direction and a run between 1 and the maximum straight run. -/
def all_keys (grid : Grid Nat) (ultra_crucible : Bool) : Finset Key :=
  insert State.initial.seen_key
    (valid_coords grid ×ˢ
      ((Finset.univ : Finset Direction).image some ×ˢ
        Finset.Icc 1 (max_straight_line ultra_crucible)))

/-- Cardinality bound for the key space. -/
theorem all_keys_card_le (grid : Grid Nat) (ultra_crucible : Bool) :
    (all_keys grid ultra_crucible).card ≤
      grid.width * grid.height * 4 * max_straight_line ultra_crucible + 1 := by
  refine le_trans (Finset.card_insert_le _ _) ?_
  have h1 : (valid_coords grid).card ≤ grid.width * grid.height := by
    refine le_trans Finset.card_image_le ?_
    rw [Finset.card_product]
    simp
  have h2 : (((Finset.univ : Finset Direction).image some).card ≤ 4) := by
    refine le_trans Finset.card_image_le ?_
    decide
  have h3 : (Finset.Icc 1 (max_straight_line ultra_crucible)).card ≤
      max_straight_line ultra_crucible := by
    rw [Nat.card_Icc]
    omega
  have h4 : (valid_coords grid ×ˢ
      ((Finset.univ : Finset Direction).image some ×ˢ
        Finset.Icc 1 (max_straight_line ultra_crucible))).card ≤
      grid.width * grid.height * 4 * max_straight_line ultra_crucible :=
    calc (valid_coords grid ×ˢ
        ((Finset.univ : Finset Direction).image some ×ˢ
          Finset.Icc 1 (max_straight_line ultra_crucible))).card
        = (valid_coords grid).card *
            (((Finset.univ : Finset Direction).image some).card *
              (Finset.Icc 1 (max_straight_line ultra_crucible)).card) := by
          rw [Finset.card_product, Finset.card_product]
      _ ≤ (grid.width * grid.height) * (4 * max_straight_line ultra_crucible) :=
          Nat.mul_le_mul h1 (Nat.mul_le_mul h2 h3)
      _ = grid.width * grid.height * 4 * max_straight_line ultra_crucible := by ring
  omega

/-- Valid coordinates belong to the finite coordinate set. -/
theorem mem_valid_coords {grid : Grid Nat} {c : Coord}
    (h : grid.is_valid_coord c = true) : c ∈ valid_coords grid := by
  obtain ⟨x, y⟩ := c
  rw [Grid.is_valid_coord, decide_eq_true_iff] at h
  dsimp only at h
  obtain ⟨h1, h2, h3, h4⟩ := h
  refine Finset.mem_image.mpr ⟨(x.toNat, y.toNat), ?_, ?_⟩
  · rw [Finset.mem_product]
    constructor <;> rw [Finset.mem_range] <;> omega
  · simp only [Coord.mk.injEq]
    constructor <;> omega

/-- The maximum straight run of either mode is positive. -/
theorem one_le_max_straight_line (ultra_crucible : Bool) :
    1 ≤ max_straight_line ultra_crucible := by
  cases ultra_crucible <;> decide

/-- Keys of successor states lie in the finite key space. -/
theorem State.neighbours_key_mem {grid : Grid Nat} {ultra_crucible : Bool} {s t : State}
    (ht : t ∈ s.neighbours grid ultra_crucible) :
    t.seen_key ∈ all_keys grid ultra_crucible := by
  rcases State.mem_neighbours.mp ht with ⟨d, -, hmove⟩
  rcases State.move_in_direction_eq_some.mp hmove with ⟨r, hr, ac, hac, htt⟩
  have hrb : 1 ≤ r ∧ r ≤ max_straight_line ultra_crucible := by
    by_cases h1 : some d = s.last_direction
    · rw [if_pos h1] at hr
      omega
    · rw [if_neg h1] at hr
      exact ⟨by omega, by rw [hr.2]; exact one_le_max_straight_line ultra_crucible⟩
  subst htt
  refine Finset.mem_insert_of_mem ?_
  rw [Finset.mem_product]
  refine ⟨mem_valid_coords (Grid.get_some_valid hac), ?_⟩
  rw [Finset.mem_product]
  constructor
  · exact Finset.mem_image_of_mem some (Finset.mem_univ d)
  · rw [Finset.mem_Icc]
    exact hrb

/-- Each expansion pushes at most four successors. -/
theorem State.neighbours_length_le (grid : Grid Nat) (ultra_crucible : Bool) (s : State) :
    (s.neighbours grid ultra_crucible).length ≤ 4 := by
  refine le_trans (List.length_filterMap_le _ _) ?_
  rw [State.possible_directions]
  cases s.last_direction <;> simp

/-- Length bound for a duplicate-free list of keys from the key space. -/
theorem seen_length_le {grid : Grid Nat} {ultra_crucible : Bool} {S : List Key}
    (hnd : S.Nodup) (hmem : ∀ k ∈ S, k ∈ all_keys grid ultra_crucible) :
    S.length ≤ grid.width * grid.height * 4 * max_straight_line ultra_crucible + 1 := by
  have h1 : S.toFinset.card = S.length := List.toFinset_card_of_nodup hnd
  have h2 : S.toFinset ⊆ all_keys grid ultra_crucible := fun x hx =>
    hmem x (List.mem_toFinset.mp hx)
  have h3 := Finset.card_le_card h2
  have h4 := all_keys_card_le grid ultra_crucible
  omega

/-- Termination of the search loop: with fuel exceeding the measure
`|frontier| + 5 * (key bound + 1 - |seen|)`, the loop never runs out of
fuel — every iteration pops one state, and an expansion retires one unseen
key forever while pushing at most four successors. -/
theorem search_loop_total (grid : Grid Nat) (ultra_crucible : Bool) (end_pos : Coord) :
    ∀ (fuel : Nat) (F : List State) (S : List Key),
      S.Nodup → (∀ k ∈ S, k ∈ all_keys grid ultra_crucible) →
      (∀ s ∈ F, s.seen_key ∈ all_keys grid ultra_crucible) →
      F.length + 5 * (grid.width * grid.height * 4 * max_straight_line ultra_crucible + 1 -
        S.length) < fuel →
      search_loop grid ultra_crucible end_pos fuel F S ≠ .out_of_fuel := by
  intro fuel
  induction fuel with
  | zero =>
    intro F S _ _ _ hM
    omega
  | succ n ih =>
    intro F S hnd hSK hFK hM
    rw [search_loop]
    cases hpop : pop_min end_pos F with
    | none => simp
    | some p =>
      obtain ⟨u, rest⟩ := p
      dsimp only
      have hperm := pop_min_perm hpop
      have hlen : F.length = rest.length + 1 := by
        rw [hperm.length_eq]
        rfl
      have huF : u ∈ F := hperm.symm.subset (List.mem_cons_self u rest)
      have hrestF : ∀ s ∈ rest, s ∈ F := fun s hs =>
        hperm.symm.subset (List.mem_cons_of_mem u hs)
      by_cases hEnd : u.is_end_state end_pos ultra_crucible = true
      · rw [if_pos hEnd]
        simp
      · rw [if_neg hEnd]
        by_cases hSeen : u.seen_key ∈ S
        · rw [if_pos hSeen]
          exact ih rest S hnd hSK (fun s hs => hFK s (hrestF s hs)) (by omega)
        · rw [if_neg hSeen]
          have hnd' : (u.seen_key :: S).Nodup := List.nodup_cons.mpr ⟨hSeen, hnd⟩
          have hSK' : ∀ k ∈ u.seen_key :: S, k ∈ all_keys grid ultra_crucible := by
            intro k hk
            rcases List.mem_cons.mp hk with hk | hk
            · rw [hk]
              exact hFK u huF
            · exact hSK k hk
          have hFK' : ∀ s ∈ rest ++ u.neighbours grid ultra_crucible,
              s.seen_key ∈ all_keys grid ultra_crucible := by
            intro s hs
            rcases List.mem_append.mp hs with hs | hs
            · exact hFK s (hrestF s hs)
            · exact State.neighbours_key_mem hs
          have hnb := State.neighbours_length_le grid ultra_crucible u
          have hSle := seen_length_le hnd' hSK'
          refine ih _ _ hnd' hSK' hFK' ?_
          rw [List.length_append]
          simp only [List.length_cons] at hSle ⊢
          omega

/-! Optimality machinery: consistency of the heuristic, cost-shift invariance
of the expansion rule, and the frontier-coverage invariant. -/

/-- Components of an equal configuration key. -/
theorem State.seen_key_eq_parts {s t : State} (h : s.seen_key = t.seen_key) :
    s.pos = t.pos ∧ s.last_direction = t.last_direction ∧
    s.repeated_last_direction = t.repeated_last_direction := by
  rw [State.seen_key, State.seen_key, Prod.ext_iff, Prod.ext_iff] at h
  exact ⟨h.1, h.2.1, h.2.2⟩

/-- State with a given configuration key and accumulated cost. -/
def state_of_key (k : Key) (cost : Nat) : State := ⟨k.1, cost, k.2.1, k.2.2⟩

/-- The key of `state_of_key` is the given key. -/
theorem state_of_key_seen_key (k : Key) (c : Nat) : (state_of_key k c).seen_key = k := rfl

/-- Rebuilding a state from its own key and cost is the identity. -/
theorem state_of_key_eta (s : State) : state_of_key s.seen_key s.cost = s := rfl

/-- Whether a state is an end state depends only on its configuration key. -/
theorem State.is_end_state_congr {end_pos : Coord} {ultra_crucible : Bool} {s t : State}
    (h : s.seen_key = t.seen_key) :
    s.is_end_state end_pos ultra_crucible = t.is_end_state end_pos ultra_crucible := by
  obtain ⟨h1, -, h3⟩ := State.seen_key_eq_parts h
  rw [State.is_end_state, State.is_end_state, h1, h3]

/-- An end state sits at the end position. -/
theorem State.is_end_state_pos {end_pos : Coord} {ultra_crucible : Bool} {s : State}
    (h : s.is_end_state end_pos ultra_crucible = true) : s.pos = end_pos := by
  rw [State.is_end_state, Bool.and_eq_true, decide_eq_true_iff] at h
  exact h.1

/-- Unfolding of coordinate subtraction. -/
theorem Coord.sub_def (a b : Coord) : a - b = ⟨a.x - b.x, a.y - b.y⟩ := rfl

/-- Unfolding of coordinate addition. -/
theorem Coord.add_def (a b : Coord) : a + b = ⟨a.x + b.x, a.y + b.y⟩ := rfl

/-- The heuristic vanishes at the end position. -/
theorem State.heuristic_self {end_pos : Coord} {s : State} (h : s.pos = end_pos) :
    s.heuristic end_pos = 0 := by
  rw [State.heuristic, h, Coord.sub_def]
  simp only [Coord.manhattan]
  omega

/-- Moving one grid step changes the Manhattan distance to a fixed target by
at most one. -/
theorem Coord.manhattan_sub_delta (a : Coord) (d : Direction) :
    a.manhattan ≤ (a - d.to_delta).manhattan + 1 := by
  obtain ⟨x, y⟩ := a
  cases d <;> simp only [Coord.sub_def, Direction.to_delta, Coord.manhattan] <;> omega

/-- Subtracting a sum of coordinates is iterated subtraction. -/
theorem Coord.sub_add_eq (a b c : Coord) : a - (b + c) = a - b - c := by
  show Coord.sub a (Coord.add b c) = Coord.sub (Coord.sub a b) c
  rw [Coord.sub, Coord.sub, Coord.sub, Coord.add]
  dsimp only
  rw [Coord.mk.injEq]
  constructor <;> ring

/-- Consistency of the Manhattan heuristic: with positive cell costs, the
estimate never decreases along an expansion step. -/
theorem estimate_le_of_step {grid : Grid Nat} {ultra_crucible : Bool} {end_pos : Coord}
    {s t : State} (hpos : ∀ c v, grid.get c = some v → 1 ≤ v)
    (ht : t ∈ s.neighbours grid ultra_crucible) :
    s.estimate end_pos ≤ t.estimate end_pos := by
  rcases State.mem_neighbours.mp ht with ⟨d, -, hmove⟩
  rcases State.move_in_direction_eq_some.mp hmove with ⟨r, -, ac, hac, htt⟩
  have h1 := hpos _ _ hac
  subst htt
  rw [State.estimate, State.estimate, State.heuristic, State.heuristic]
  have h2 : (end_pos - s.pos).manhattan ≤
      (end_pos - s.pos - d.to_delta).manhattan + 1 :=
    Coord.manhattan_sub_delta (end_pos - s.pos) d
  rw [Coord.sub_add_eq]
  dsimp only
  omega

/-- The candidate directions depend only on the last direction. -/
theorem State.possible_directions_congr {s1 s2 : State}
    (h : s1.last_direction = s2.last_direction) :
    s1.possible_directions = s2.possible_directions := by
  rw [State.possible_directions, State.possible_directions, h]

/-- Cost-shift invariance of the expansion rule: a state with the same
configuration key and a cost at most the original's has, for each successor
of the original, a successor with the same key and a cost at most the
original successor's. -/
theorem neighbours_shift {grid : Grid Nat} {ultra_crucible : Bool} {s1 s2 t : State}
    (hk : s1.seen_key = s2.seen_key) (hc : s2.cost ≤ s1.cost)
    (ht : t ∈ s1.neighbours grid ultra_crucible) :
    ∃ y ∈ s2.neighbours grid ultra_crucible, y.seen_key = t.seen_key ∧ y.cost ≤ t.cost := by
  obtain ⟨hp, hl, hr⟩ := State.seen_key_eq_parts hk
  rcases State.mem_neighbours.mp ht with ⟨d, hd, hmove⟩
  rcases State.move_in_direction_eq_some.mp hmove with ⟨r, hrr, ac, hac, htt⟩
  refine ⟨⟨s2.pos + d.to_delta, s2.cost + ac, some d, r⟩, ?_, ?_, ?_⟩
  · rw [State.mem_neighbours]
    refine ⟨d, ?_, ?_⟩
    · rw [← State.possible_directions_congr hl]
      exact hd
    · rw [State.move_in_direction_eq_some]
      refine ⟨r, ?_, ac, by rw [← hp]; exact hac, rfl⟩
      rw [← hl, ← hr]
      exact hrr
  · rw [htt, State.seen_key, State.seen_key]
    dsimp only
    rw [hp]
  · rw [htt]
    dsimp only
    omega

/-- Frontier coverage: under the search invariants, every reachable state
whose key is unexpanded is dominated in estimate by some frontier state. -/
theorem frontier_covers {grid : Grid Nat} {ultra_crucible : Bool} {e : Coord}
    (hpos : ∀ c v, grid.get c = some v → 1 ≤ v)
    {F : List State} {S : List Key} {D : Key → Nat}
    (hInit : State.initial ∈ F ∨ State.initial.seen_key ∈ S)
    (hP2 : ∀ k ∈ S, ∀ t, Reaches grid ultra_crucible t → t.seen_key = k → D k ≤ t.cost)
    (hP4 : ∀ k ∈ S, ∀ y ∈ (state_of_key k (D k)).neighbours grid ultra_crucible,
      y.seen_key ∈ S ∨ ∃ w ∈ F, w.seen_key = y.seen_key ∧ w.cost ≤ y.cost)
    {t : State} (hreach : Reaches grid ultra_crucible t) (hnot : t.seen_key ∉ S) :
    ∃ w ∈ F, w.estimate e ≤ t.estimate e := by
  revert hnot
  induction hreach with
  | refl =>
    intro hnot
    rcases hInit with h | h
    · exact ⟨State.initial, h, le_refl _⟩
    · exact absurd h hnot
  | tail hab hbc ih =>
    rename_i b c
    intro hnot
    by_cases hbS : b.seen_key ∈ S
    · have hD := hP2 b.seen_key hbS b hab rfl
      have hkx : b.seen_key = (state_of_key b.seen_key (D b.seen_key)).seen_key :=
        (state_of_key_seen_key _ _).symm
      have hshift := neighbours_shift hkx hD hbc
      rcases hshift with ⟨y, hy, hyk, hyc⟩
      rcases hP4 b.seen_key hbS y hy with hyS | ⟨w, hwF, hwk, hwc⟩
      · rw [hyk] at hyS
        exact absurd hyS hnot
      · refine ⟨w, hwF, ?_⟩
        have hpw : w.pos = c.pos := (State.seen_key_eq_parts (hwk.trans hyk)).1
        rw [State.estimate, State.estimate, State.heuristic, State.heuristic, hpw]
        have hcc : w.cost ≤ c.cost := le_trans hwc hyc
        omega
    · rcases ih hbS with ⟨w, hwF, hwe⟩
      exact ⟨w, hwF, le_trans hwe (estimate_le_of_step hpos hbc)⟩

/-- Core invariant argument of the best-first loop with positive cell costs:
when the loop answers `found m`, `m` is the cost of a reachable end state and
a lower bound on every reachable end state's cost; when it answers `no_path`,
no reachable end state exists.  The function `D` records, for every expanded
key, the cost at which it was expanded. -/
theorem search_loop_spec (grid : Grid Nat) (ultra_crucible : Bool) (end_pos : Coord)
    (hpos : ∀ c v, grid.get c = some v → 1 ≤ v) :
    ∀ (fuel : Nat) (F : List State) (S : List Key) (D : Key → Nat),
      (∀ s ∈ F, Reaches grid ultra_crucible s) →
      (State.initial ∈ F ∨ State.initial.seen_key ∈ S) →
      (∀ k ∈ S, ∀ t : State, t.seen_key = k →
        t.is_end_state end_pos ultra_crucible = false) →
      (∀ k ∈ S, ∀ t, Reaches grid ultra_crucible t → t.seen_key = k → D k ≤ t.cost) →
      (∀ k ∈ S, ∀ y ∈ (state_of_key k (D k)).neighbours grid ultra_crucible,
        y.seen_key ∈ S ∨ ∃ w ∈ F, w.seen_key = y.seen_key ∧ w.cost ≤ y.cost) →
      (∀ m, search_loop grid ultra_crucible end_pos fuel F S = .found m →
        (∃ t, Reaches grid ultra_crucible t ∧
          t.is_end_state end_pos ultra_crucible = true ∧ t.cost = m) ∧
        (∀ t, Reaches grid ultra_crucible t →
          t.is_end_state end_pos ultra_crucible = true → m ≤ t.cost)) ∧
      (search_loop grid ultra_crucible end_pos fuel F S = .no_path →
        ∀ t, Reaches grid ultra_crucible t →
          t.is_end_state end_pos ultra_crucible = false) := by
  intro fuel
  induction fuel with
  | zero =>
    intro F S D _ _ _ _ _
    rw [search_loop]
    constructor
    · intro m h
      cases h
    · intro h
      cases h
  | succ n ih =>
    intro F S D hR hInit hNGS hP2 hP4
    rw [search_loop]
    cases hpop : pop_min end_pos F with
    | none =>
      dsimp only
      refine ⟨fun m h => absurd h (by simp), fun _ t hreach => ?_⟩
      cases hend : t.is_end_state end_pos ultra_crucible
      · rfl
      · exfalso
        by_cases htS : t.seen_key ∈ S
        · have h1 := hNGS t.seen_key htS t rfl
          rw [h1] at hend
          cases hend
        · rcases frontier_covers (e := end_pos) hpos hInit hP2 hP4 hreach htS with
            ⟨w, hwF, -⟩
          rw [pop_min_eq_none.mp hpop] at hwF
          cases hwF
    | some p =>
      obtain ⟨u, rest⟩ := p
      dsimp only
      have hperm := pop_min_perm hpop
      have huF : u ∈ F := hperm.symm.subset (List.mem_cons_self u rest)
      have hrestF : ∀ s ∈ rest, s ∈ F := fun s hs =>
        hperm.symm.subset (List.mem_cons_of_mem u hs)
      by_cases hEnd : u.is_end_state end_pos ultra_crucible = true
      · rw [if_pos hEnd]
        constructor
        · intro m hm
          cases hm
          constructor
          · exact ⟨u, hR u huF, hEnd, rfl⟩
          · intro t hreach htEnd
            have htS : t.seen_key ∉ S := by
              intro htS
              have h1 := hNGS t.seen_key htS t rfl
              rw [h1] at htEnd
              cases htEnd
            rcases frontier_covers (e := end_pos) hpos hInit hP2 hP4 hreach htS with
              ⟨w, hwF, hwe⟩
            have h1 : u.estimate end_pos ≤ w.estimate end_pos := pop_min_le hpop w hwF
            have h2 : u.estimate end_pos = u.cost := by
              rw [State.estimate, State.heuristic_self (State.is_end_state_pos hEnd)]
              omega
            have h3 : t.estimate end_pos = t.cost := by
              rw [State.estimate, State.heuristic_self (State.is_end_state_pos htEnd)]
              omega
            omega
        · intro h
          cases h
      · rw [if_neg hEnd]
        have hEndF : u.is_end_state end_pos ultra_crucible = false := by
          rw [← Bool.not_eq_true]
          exact hEnd
        by_cases hSeen : u.seen_key ∈ S
        · rw [if_pos hSeen]
          refine ih rest S D (fun s hs => hR s (hrestF s hs)) ?_ hNGS hP2 ?_
          · rcases hInit with h | h
            · rcases List.mem_cons.mp (hperm.subset h) with h | h
              · right
                rw [h]
                exact hSeen
              · left
                exact h
            · right
              exact h
          · intro k hk y hy
            rcases hP4 k hk y hy with h | ⟨w, hwF, hwk, hwc⟩
            · exact Or.inl h
            · rcases List.mem_cons.mp (hperm.subset hwF) with h | h
              · refine Or.inl ?_
                rw [← hwk, h]
                exact hSeen
              · exact Or.inr ⟨w, h, hwk, hwc⟩
        · rw [if_neg hSeen]
          refine ih (rest ++ u.neighbours grid ultra_crucible) (u.seen_key :: S)
            (fun k => if k = u.seen_key then u.cost else D k) ?_ ?_ ?_ ?_ ?_
          · intro s hs
            rcases List.mem_append.mp hs with hs | hs
            · exact hR s (hrestF s hs)
            · exact Relation.ReflTransGen.tail (hR u huF) hs
          · rcases hInit with h | h
            · rcases List.mem_cons.mp (hperm.subset h) with h | h
              · right
                rw [h]
                exact List.mem_cons_self _ _
              · left
                exact List.mem_append_left _ h
            · right
              exact List.mem_cons_of_mem _ h
          · intro k hk t htk
            rcases List.mem_cons.mp hk with hk | hk
            · rw [hk] at htk
              rw [State.is_end_state_congr htk]
              exact hEndF
            · exact hNGS k hk t htk
          · intro k hk t hreach htk
            rcases List.mem_cons.mp hk with hk | hk
            · subst hk
              dsimp only
              rw [if_pos rfl]
              have htS : t.seen_key ∉ S := by
                rw [htk]
                exact hSeen
              rcases frontier_covers (e := end_pos) hpos hInit hP2 hP4 hreach htS with
                ⟨w, hwF, hwe⟩
              have h1 : u.estimate end_pos ≤ w.estimate end_pos := pop_min_le hpop w hwF
              have h3 : u.estimate end_pos ≤ t.estimate end_pos := le_trans h1 hwe
              have hp2 : t.heuristic end_pos = u.heuristic end_pos := by
                rw [State.heuristic, State.heuristic, (State.seen_key_eq_parts htk).1]
              rw [State.estimate, State.estimate, hp2] at h3
              omega
            · have hne : k ≠ u.seen_key := fun hkk => hSeen (hkk ▸ hk)
              dsimp only
              rw [if_neg hne]
              exact hP2 k hk t hreach htk
          · intro k hk y hy
            rcases List.mem_cons.mp hk with hk | hk
            · subst hk
              dsimp only at hy
              rw [if_pos rfl, state_of_key_eta] at hy
              exact Or.inr ⟨y, List.mem_append_right _ hy, rfl, le_refl _⟩
            · have hne : k ≠ u.seen_key := fun hkk => hSeen (hkk ▸ hk)
              dsimp only at hy
              rw [if_neg hne] at hy
              rcases hP4 k hk y hy with h | ⟨w, hwF, hwk, hwc⟩
              · exact Or.inl (List.mem_cons_of_mem _ h)
              · rcases List.mem_cons.mp (hperm.subset hwF) with h | h
                · refine Or.inl ?_
                  rw [← hwk, h]
                  exact List.mem_cons_self _ _
                · exact Or.inr ⟨w, List.mem_append_left _ h, hwk, hwc⟩

/-- Fuel adequacy at the top level: `shortest_path` never exhausts its
recursion bound. -/
theorem shortest_path_ne_out_of_fuel (grid : Grid Nat) (ultra_crucible : Bool) :
    shortest_path grid ultra_crucible ≠ .out_of_fuel :=
  search_loop_total grid ultra_crucible (end_pos_of grid)
    (fuel_bound grid ultra_crucible) [State.initial] []
    List.nodup_nil (by simp)
    (by
      intro s hs
      rcases List.mem_cons.mp hs with hs | hs
      · rw [hs]
        exact Finset.mem_insert_self _ _
      · cases hs)
    (by
      rw [fuel_bound]
      simp only [List.length_singleton, List.length_nil, Nat.sub_zero]
      generalize grid.width * grid.height * 4 * max_straight_line ultra_crucible = B
      omega)

/-- Specification of `shortest_path` for grids with positive cell costs: a
`found` answer is the cost of a reachable end state and a lower bound on the
cost of every reachable end state; a `no_path` answer means no end state is
reachable. -/
theorem shortest_path_spec (grid : Grid Nat) (ultra_crucible : Bool)
    (hpos : ∀ c v, grid.get c = some v → 1 ≤ v) :
    (∀ m, shortest_path grid ultra_crucible = .found m →
      (∃ t, Reaches grid ultra_crucible t ∧
        t.is_end_state (end_pos_of grid) ultra_crucible = true ∧ t.cost = m) ∧
      (∀ t, Reaches grid ultra_crucible t →
        t.is_end_state (end_pos_of grid) ultra_crucible = true → m ≤ t.cost)) ∧
    (shortest_path grid ultra_crucible = .no_path →
      ∀ t, Reaches grid ultra_crucible t →
        t.is_end_state (end_pos_of grid) ultra_crucible = false) :=
  search_loop_spec grid ultra_crucible (end_pos_of grid) hpos
    (fuel_bound grid ultra_crucible) [State.initial] [] (fun _ => 0)
    (by
      intro s hs
      rcases List.mem_cons.mp hs with h | h
      · rw [h]
        exact Relation.ReflTransGen.refl
      · cases h)
    (Or.inl (List.mem_cons_self _ _))
    (by
      intro k hk
      cases hk)
    (by
      intro k hk
      cases hk)
    (by
      intro k hk
      cases hk)

/-- Positivity of the cells transfers from a rows-level check to `Grid.get`. -/
theorem grid_cells_pos {grid : Grid Nat}
    (h : ∀ row ∈ grid.rows, ∀ v ∈ row, 1 ≤ v) :
    ∀ c v, grid.get c = some v → 1 ≤ v := by
  intro c v hget
  rw [Grid.get] at hget
  split at hget
  · rcases Option.bind_eq_some.mp hget with ⟨row, hrow, hv⟩
    exact h row (List.get?_mem hrow) v (List.get?_mem hv)
  · cases hget

/-- C3: the search always terminates — for every grid and mode it either
returns a cost or surfaces the explicit "no path" error once the frontier is
exhausted; in particular, when no acceptable goal state is ever popped the
result is the `no_path` error, never a hang or a crash. -/
theorem claim3_terminates_or_fails (grid : Grid Nat) (ultra_crucible : Bool) :
    shortest_path grid ultra_crucible = .no_path ∨
    ∃ m, shortest_path grid ultra_crucible = .found m := by
  cases hres : shortest_path grid ultra_crucible with
  | found m => exact Or.inr ⟨m, rfl⟩
  | no_path => exact Or.inl rfl
  | out_of_fuel => exact absurd hres (shortest_path_ne_out_of_fuel grid ultra_crucible)

/-- C1: for a grid of positive integer cell costs that admits at least one
valid route (a reachable end state under the chosen mode's run constraints),
`shortest_path` returns `found m` where `m` — the first popped goal state's
cost — is the least element of the set of reachable end-state costs. -/
theorem claim1_shortest_path_optimal (grid : Grid Nat) (ultra_crucible : Bool)
    (hpos : ∀ c v, grid.get c = some v → 1 ≤ v)
    (hex : ∃ t, Reaches grid ultra_crucible t ∧
      t.is_end_state (end_pos_of grid) ultra_crucible = true) :
    ∃ m, shortest_path grid ultra_crucible = .found m ∧
      IsLeast (goal_costs grid ultra_crucible) m := by
  have hspec := shortest_path_spec grid ultra_crucible hpos
  cases hres : shortest_path grid ultra_crucible with
  | found m =>
    obtain ⟨⟨t, ht1, ht2, ht3⟩, hmin⟩ := hspec.1 m hres
    refine ⟨m, rfl, ⟨t, ht1, ht2, ht3⟩, ?_⟩
    rintro c ⟨u, hu1, hu2, hu3⟩
    rw [← hu3]
    exact hmin u hu1 hu2
  | no_path =>
    exfalso
    obtain ⟨t, ht1, ht2⟩ := hex
    have h1 := hspec.2 hres t ht1
    rw [h1] at ht2
    cases ht2
  | out_of_fuel =>
    exact absurd hres (shortest_path_ne_out_of_fuel grid ultra_crucible)

/-- Witness for C1: the 2×2 grid [[1, 2], [3, 4]] in basic mode admits the
route east-then-south, and the returned cost is the least route cost. -/
theorem claim1_witness :
    ∃ m, shortest_path ⟨[[1, 2], [3, 4]]⟩ false = .found m ∧
      IsLeast (goal_costs ⟨[[1, 2], [3, 4]]⟩ false) m := by
  refine claim1_shortest_path_optimal ⟨[[1, 2], [3, 4]]⟩ false
    (grid_cells_pos (by decide)) ⟨⟨⟨1, 1⟩, 6, some .south, 1⟩, ?_, by decide⟩
  have h1 : (⟨⟨1, 0⟩, 2, some .east, 1⟩ : State) ∈
      State.neighbours ⟨[[1, 2], [3, 4]]⟩ false State.initial := by decide
  have h2 : (⟨⟨1, 1⟩, 6, some .south, 1⟩ : State) ∈
      State.neighbours ⟨[[1, 2], [3, 4]]⟩ false ⟨⟨1, 0⟩, 2, some .east, 1⟩ := by decide
  have hs1 : Step ⟨[[1, 2], [3, 4]]⟩ false State.initial ⟨⟨1, 0⟩, 2, some .east, 1⟩ := h1
  have hs2 : Step ⟨[[1, 2], [3, 4]]⟩ false ⟨⟨1, 0⟩, 2, some .east, 1⟩
    ⟨⟨1, 1⟩, 6, some .south, 1⟩ := h2
  exact Relation.ReflTransGen.tail (Relation.ReflTransGen.tail Relation.ReflTransGen.refl hs1) hs2

/-! Claim theorems for the simpler claims. -/

/-- C7: off-grid candidate positions are filtered during expansion — every
successor the expansion rule produces has an in-bounds position, so no
out-of-bounds access can propagate out of the search (this holds for every
grid, in particular every rectangular one). -/
theorem claim7_neighbours_in_bounds (grid : Grid Nat) (ultra_crucible : Bool) (s t : State)
    (ht : t ∈ s.neighbours grid ultra_crucible) : grid.is_valid_coord t.pos = true := by
  rcases State.mem_neighbours.mp ht with ⟨d, _, hmove⟩
  rcases State.move_in_direction_eq_some.mp hmove with ⟨r, _, ac, hac, htt⟩
  subst htt
  exact Grid.get_some_valid hac

/-- Witness for C7 at a concrete expansion: from the initial state on a 2×2
grid, the east move yields an in-bounds successor. -/
theorem claim7_witness :
    (⟨⟨1, 0⟩, 2, some .east, 1⟩ : State) ∈
      State.initial.neighbours ⟨[[1, 2], [3, 4]]⟩ false ∧
    (Grid.mk [[1, 2], [3, 4]] : Grid Nat).is_valid_coord (⟨1, 0⟩ : Coord) = true :=
  ⟨by decide, claim7_neighbours_in_bounds ⟨[[1, 2], [3, 4]]⟩ false State.initial
    ⟨⟨1, 0⟩, 2, some .east, 1⟩ (by decide)⟩

/-- C8: a 1×1 grid in basic mode returns cost 0, whatever the single cell
holds — the initial state is popped first and is already an end state. -/
theorem claim8_one_by_one_basic (v : Nat) : shortest_path ⟨[[v]]⟩ false = .found 0 := rfl

/-- C10: a 1×1 grid in extended mode fails with the "no path" error: the
initial state's run length 0 is below the minimum run of 4, so it is not a
goal, and all four moves leave the grid, exhausting the frontier. -/
theorem claim10_one_by_one_ultra (v : Nat) : shortest_path ⟨[[v]]⟩ true = .no_path := rfl

/-- C4 counterexample: `State.__eq__` is not equality of the
(position, last heading, run length) triple.  Two states with different
positions and keys but equal estimates compare equal, and two states with
equal keys but different costs compare unequal. -/
theorem claim4_counterexample :
    (State.eq ⟨1, 0⟩ ⟨⟨0, 0⟩, 0, none, 0⟩ ⟨⟨1, 0⟩, 1, some .east, 1⟩ = true ∧
      State.seen_key ⟨⟨0, 0⟩, 0, none, 0⟩ ≠ State.seen_key ⟨⟨1, 0⟩, 1, some .east, 1⟩) ∧
    (State.eq ⟨1, 0⟩ ⟨⟨0, 0⟩, 0, none, 0⟩ ⟨⟨0, 0⟩, 5, none, 0⟩ = false ∧
      State.seen_key ⟨⟨0, 0⟩, 0, none, 0⟩ = State.seen_key ⟨⟨0, 0⟩, 5, none, 0⟩) := by
  decide

/-- C4 (amended): `State.__eq__` compares estimates (accumulated cost plus
Manhattan heuristic), while the visited set deduplicates by `seen_key`, the
(position, last heading, run length) triple, which excludes cost. -/
theorem claim4_amended :
    (∀ (e : Coord) (s other : State),
      State.eq e s other = true ↔ s.estimate e = other.estimate e) ∧
    (∀ s other : State, s.seen_key = other.seen_key ↔
      s.pos = other.pos ∧ s.last_direction = other.last_direction ∧
      s.repeated_last_direction = other.repeated_last_direction) := by
  constructor
  · intro e s other
    simp [State.eq]
  · intro s other
    simp [State.seen_key, Prod.ext_iff]

/-- C5 counterexample: neither the empty grid nor a grid with ragged rows is
rejected at construction — `Grid` construction and `from_raw_lines` store the
rows unchanged, and the resulting grids answer `width`/`height` queries. -/
theorem claim5_counterexample :
    (Grid.mk ([] : List (List Nat))).height = 0 ∧
    Grid.from_raw_lines [['1'], ['2', '3']] digit_value = Grid.mk [[1], [2, 3]] ∧
    (Grid.mk [[1], [2, 3]] : Grid Nat).width = 1 ∧
    (Grid.mk [[1], [2, 3]] : Grid Nat).height = 2 := by
  refine ⟨rfl, ?_, rfl, rfl⟩
  decide

/-- C5 (amended): grid construction performs no validation; an invalid
coordinate is rejected only at access time, when `Grid.__getitem__` raises
`IndexError` (modelled by `Grid.get` answering `none`). -/
theorem claim5_amended (rows : List (List Nat)) (c : Coord)
    (h : (Grid.mk rows).is_valid_coord c = false) : (Grid.mk rows).get c = none := by
  rw [Grid.get, h]
  simp

/-- Witness for the amended C5: on the ragged grid the out-of-width coordinate
(1, 1) is rejected at access time. -/
theorem claim5_amended_witness :
    (Grid.mk [[1], [2, 3]] : Grid Nat).is_valid_coord ⟨1, 1⟩ = false ∧
    (Grid.mk [[1], [2, 3]] : Grid Nat).get ⟨1, 1⟩ = none :=
  ⟨by decide, claim5_amended [[1], [2, 3]] ⟨1, 1⟩ (by decide)⟩

/-- C6 counterexample: the `Direction` type does expose an operation mapping a
heading to its opposite — `__neg__` sends East to West, whose delta is the
negation of East's delta. -/
theorem claim6_counterexample :
    Direction.neg Direction.east = Direction.west ∧
    (Direction.neg Direction.east).to_delta = Coord.neg Direction.east.to_delta := by
  decide

/-- C6 (amended): `Direction` exposes the two 90° rotations (distinct from the
heading itself, from each other and from the opposite heading) and also a
negation operation, rotation by two quarter turns, mapping every heading to
its opposite; reversal is excluded by the expansion rule's candidate set, not
by the absence of such an operation. -/
theorem claim6_amended (d : Direction) :
    d.rotate 1 ≠ d ∧ d.rotate (-1) ≠ d ∧ d.rotate 1 ≠ d.rotate (-1) ∧
    d.rotate 1 ≠ Direction.neg d ∧ d.rotate (-1) ≠ Direction.neg d ∧
    Direction.neg d = d.rotate 2 ∧ (Direction.neg d).to_delta = Coord.neg d.to_delta := by
  cases d <;> decide

/-! Route-level machinery for the monotonicity claim. -/

/-- One directed step of a route: available only when the direction is among
the state's candidates. -/
def step_dir (grid : Grid Nat) (ultra_crucible : Bool) (s : State) (d : Direction) :
    Option State :=
  if d ∈ s.possible_directions then s.move_in_direction grid ultra_crucible d else none

/-- Walk along a list of directions through the expansion rule. -/
def walk (grid : Grid Nat) (ultra_crucible : Bool) : State → List Direction → Option State
  | s, [] => some s
  | s, d :: ds =>
    match step_dir grid ultra_crucible s d with
    | none => none
    | some t => walk grid ultra_crucible t ds

/-- Steps of the search are exactly the successful directed steps. -/
theorem step_iff_step_dir {grid : Grid Nat} {ultra_crucible : Bool} {s t : State} :
    Step grid ultra_crucible s t ↔ ∃ d, step_dir grid ultra_crucible s d = some t := by
  unfold Step
  rw [State.mem_neighbours]
  constructor
  · rintro ⟨d, hd, hm⟩
    refine ⟨d, ?_⟩
    rw [step_dir, if_pos hd]
    exact hm
  · rintro ⟨d, hd⟩
    rw [step_dir] at hd
    by_cases hmem : d ∈ s.possible_directions
    · rw [if_pos hmem] at hd
      exact ⟨d, hmem, hd⟩
    · rw [if_neg hmem] at hd
      cases hd

/-- Concatenation of walks. -/
theorem walk_append (grid : Grid Nat) (ultra_crucible : Bool) (ds ds' : List Direction) :
    ∀ s : State, walk grid ultra_crucible s (ds ++ ds') =
      (walk grid ultra_crucible s ds).bind
        (fun t => walk grid ultra_crucible t ds') := by
  induction ds with
  | nil =>
    intro s
    rfl
  | cons d ds ih =>
    intro s
    rw [List.cons_append]
    simp only [walk]
    cases step_dir grid ultra_crucible s d
    · rfl
    · exact ih _

/-- States reached by a walk from a reachable state are reachable. -/
theorem reaches_of_walk {grid : Grid Nat} {ultra_crucible : Bool} :
    ∀ (ds : List Direction) (s t : State),
      walk grid ultra_crucible s ds = some t →
      Reaches grid ultra_crucible s → Reaches grid ultra_crucible t := by
  intro ds
  induction ds with
  | nil =>
    intro s t h hs
    cases h
    exact hs
  | cons d ds ih =>
    intro s t h hs
    simp only [walk] at h
    cases hsd : step_dir grid ultra_crucible s d with
    | none =>
      rw [hsd] at h
      cases h
    | some u =>
      rw [hsd] at h
      dsimp only at h
      exact ih u t h (Relation.ReflTransGen.tail hs (step_iff_step_dir.mpr ⟨d, hsd⟩))

/-- Reachability is exactly arrival of some walk from the initial state. -/
theorem reaches_iff_walk {grid : Grid Nat} {ultra_crucible : Bool} {t : State} :
    Reaches grid ultra_crucible t ↔
    ∃ ds, walk grid ultra_crucible State.initial ds = some t := by
  constructor
  · intro h
    induction h with
    | refl => exact ⟨[], rfl⟩
    | tail hab hbc ih =>
      rcases ih with ⟨ds, hds⟩
      rcases step_iff_step_dir.mp hbc with ⟨d, hd⟩
      refine ⟨ds ++ [d], ?_⟩
      rw [walk_append, hds, Option.some_bind]
      simp only [walk, hd]
  · rintro ⟨ds, hds⟩
    exact reaches_of_walk ds State.initial t hds Relation.ReflTransGen.refl

/-- Pointwise lookup along `Forall₂`-related lists. -/
theorem forall2_get_some {α β : Type} {R : α → β → Prop} :
    ∀ {l : List α} {l' : List β}, List.Forall₂ R l l' →
      ∀ (n : Nat) (b : β), l'.get? n = some b → ∃ a, l.get? n = some a ∧ R a b := by
  intro l l' h
  induction h with
  | nil =>
    intro n b hb
    cases hb
  | cons hR hF ih =>
    intro n b hb
    cases n with
    | zero =>
      cases hb
      exact ⟨_, rfl, hR⟩
    | succ n => exact ih n b hb

/-- Pointwise grid domination: same shape and each cell of the first at most
the corresponding cell of the second. -/
def grid_le (g g' : Grid Nat) : Prop :=
  List.Forall₂ (List.Forall₂ (fun v v' => v ≤ v')) g.rows g'.rows

/-- Dominated grids share their height. -/
theorem grid_le_height {g g' : Grid Nat} (h : grid_le g g') : g.height = g'.height :=
  List.Forall₂.length_eq h

/-- Dominated grids share their width. -/
theorem grid_le_width {g g' : Grid Nat} (h : grid_le g g') : g.width = g'.width := by
  obtain ⟨rows⟩ := g
  obtain ⟨rows'⟩ := g'
  cases h with
  | nil => rfl
  | cons hrow hrest =>
    simp only [Grid.width]
    exact hrow.length_eq

/-- Dominated grids share their end position. -/
theorem end_pos_of_congr {g g' : Grid Nat} (h : grid_le g g') :
    end_pos_of g = end_pos_of g' := by
  rw [end_pos_of, end_pos_of, grid_le_width h, grid_le_height h]

/-- A successful access of the dominating grid succeeds in the dominated grid
with a cell at most the dominating grid's. -/
theorem grid_le_get_some {g g' : Grid Nat} (h : grid_le g g') {c : Coord} {v' : Nat}
    (hv' : g'.get c = some v') : ∃ v, g.get c = some v ∧ v ≤ v' := by
  have hvc : g'.is_valid_coord c = true := Grid.get_some_valid hv'
  have hvc2 : g.is_valid_coord c = true := by
    rw [Grid.is_valid_coord, decide_eq_true_iff] at hvc ⊢
    rw [grid_le_width h, grid_le_height h]
    exact hvc
  rw [Grid.get, if_pos hvc] at hv'
  rcases Option.bind_eq_some.mp hv' with ⟨row', hrow', hcell'⟩
  rcases forall2_get_some h _ _ hrow' with ⟨row, hrow, hR⟩
  rcases forall2_get_some hR _ _ hcell' with ⟨v, hv, hvle⟩
  refine ⟨v, ?_, hvle⟩
  rw [Grid.get, if_pos hvc2, hrow, Option.some_bind]
  exact hv

/-- A successful access of the dominated grid succeeds in the dominating grid
with a cell at least the dominated grid's. -/
theorem grid_le_get_some_rev {g g' : Grid Nat} (h : grid_le g g') {c : Coord} {v : Nat}
    (hv : g.get c = some v) : ∃ v', g'.get c = some v' ∧ v ≤ v' := by
  have hvc : g.is_valid_coord c = true := Grid.get_some_valid hv
  have hvc2 : g'.is_valid_coord c = true := by
    rw [Grid.is_valid_coord, decide_eq_true_iff] at hvc ⊢
    rw [← grid_le_width h, ← grid_le_height h]
    exact hvc
  rw [Grid.get, if_pos hvc] at hv
  rcases Option.bind_eq_some.mp hv with ⟨row, hrow, hcell⟩
  rcases forall2_get_some (List.Forall₂.flip h) _ _ hrow with ⟨row', hrow', hR⟩
  rcases forall2_get_some (List.Forall₂.flip hR) _ _ hcell with ⟨v', hv', hvle⟩
  refine ⟨v', ?_, hvle⟩
  rw [Grid.get, if_pos hvc2, hrow', Option.some_bind]
  exact hv'

/-- Directed steps transfer between grids related cell-by-cell: along a cost
relation `P` compatible with adding the related cells, a step in the second
grid induces a step in the first with the same key and related cost. -/
theorem step_dir_rel {gA gB : Grid Nat} {ultra_crucible : Bool} {P : Nat → Nat → Prop}
    (hget : ∀ c v', gB.get c = some v' → ∃ v, gA.get c = some v ∧
      ∀ a b, P a b → P (a + v) (b + v'))
    {s s' u' : State} {d : Direction} (hk : s.seen_key = s'.seen_key)
    (hc : P s.cost s'.cost) (h : step_dir gB ultra_crucible s' d = some u') :
    ∃ u, step_dir gA ultra_crucible s d = some u ∧
      u.seen_key = u'.seen_key ∧ P u.cost u'.cost := by
  obtain ⟨hp, hl, hr⟩ := State.seen_key_eq_parts hk
  rw [step_dir] at h
  by_cases hmem : d ∈ s'.possible_directions
  · rw [if_pos hmem] at h
    rcases State.move_in_direction_eq_some.mp h with ⟨r, hrr, ac', hac', htt⟩
    have hget' : gB.get (s.pos + d.to_delta) = some ac' := by
      rw [hp]
      exact hac'
    obtain ⟨v, hv, hvP⟩ := hget _ _ hget'
    refine ⟨⟨s.pos + d.to_delta, s.cost + v, some d, r⟩, ?_, ?_, ?_⟩
    · have hmem2 : d ∈ s.possible_directions := by
        rw [State.possible_directions_congr hl]
        exact hmem
      rw [step_dir, if_pos hmem2, State.move_in_direction_eq_some]
      refine ⟨r, ?_, v, hv, rfl⟩
      rw [hl, hr]
      exact hrr
    · rw [htt, State.seen_key, State.seen_key]
      dsimp only
      rw [hp]
    · rw [htt]
      dsimp only
      exact hvP _ _ hc
  · rw [if_neg hmem] at h
    cases h

/-- Walks transfer between grids related cell-by-cell, preserving the key and
the cost relation. -/
theorem walk_rel {gA gB : Grid Nat} {ultra_crucible : Bool} {P : Nat → Nat → Prop}
    (hget : ∀ c v', gB.get c = some v' → ∃ v, gA.get c = some v ∧
      ∀ a b, P a b → P (a + v) (b + v')) :
    ∀ (ds : List Direction) (s s' t' : State),
      s.seen_key = s'.seen_key → P s.cost s'.cost →
      walk gB ultra_crucible s' ds = some t' →
      ∃ t, walk gA ultra_crucible s ds = some t ∧
        t.seen_key = t'.seen_key ∧ P t.cost t'.cost := by
  intro ds
  induction ds with
  | nil =>
    intro s s' t' hk hc hw
    cases hw
    exact ⟨s, rfl, hk, hc⟩
  | cons d ds ih =>
    intro s s' t' hk hc hw
    simp only [walk] at hw
    cases hsd : step_dir gB ultra_crucible s' d with
    | none =>
      rw [hsd] at hw
      cases hw
    | some u' =>
      rw [hsd] at hw
      dsimp only at hw
      obtain ⟨u, hu, huk, huc⟩ := step_dir_rel hget hk hc hsd
      obtain ⟨t, ht, htk, htc⟩ := ih u u' t' huk huc hw
      refine ⟨t, ?_, htk, htc⟩
      simp only [walk, hu]
      exact ht

/-- Embedding of a single-cell replacement of a grid (row `p.y`, column
`p.x`). -/
def update_cell (g : Grid Nat) (p : Coord) (v : Nat) : Grid Nat :=
  ⟨g.rows.set p.y.toNat ((g.rows.getD p.y.toNat []).set p.x.toNat v)⟩

/-- Reflexivity of `Forall₂` for a reflexive relation. -/
theorem forall2_self {α : Type} {R : α → α → Prop} (hrefl : ∀ a, R a a) :
    ∀ l : List α, List.Forall₂ R l l := by
  intro l
  induction l with
  | nil => exact List.Forall₂.nil
  | cons x xs ih => exact List.Forall₂.cons (hrefl x) ih

/-- Setting one entry to a related value relates the lists pointwise. -/
theorem forall2_set {α : Type} {R : α → α → Prop} (hrefl : ∀ a, R a a) :
    ∀ (l : List α) (n : Nat) (a b : α), l.get? n = some a → R a b →
      List.Forall₂ R l (l.set n b) := by
  intro l
  induction l with
  | nil =>
    intro n a b h
    cases h
  | cons x xs ih =>
    intro n a b h hR
    cases n with
    | zero =>
      cases h
      exact List.Forall₂.cons hR (forall2_self hrefl xs)
    | succ n => exact List.Forall₂.cons (hrefl x) (ih n a b h hR)

/-- A single-cell increase dominates the original grid pointwise. -/
theorem grid_le_update_cell {g : Grid Nat} {p : Coord} {v_old v_new : Nat}
    (hcell : g.get p = some v_old) (hinc : v_old ≤ v_new) :
    grid_le g (update_cell g p v_new) := by
  rw [Grid.get] at hcell
  split at hcell
  · rcases Option.bind_eq_some.mp hcell with ⟨row, hrow, hv⟩
    have hgetD : g.rows.getD p.y.toNat [] = row := by
      rw [List.getD_eq_getElem?_getD, ← List.get?_eq_getElem?, hrow]
      rfl
    show List.Forall₂ _ g.rows
      (g.rows.set p.y.toNat ((g.rows.getD p.y.toNat []).set p.x.toNat v_new))
    rw [hgetD]
    exact forall2_set (forall2_self (fun a => le_refl a)) g.rows p.y.toNat row _ hrow
      (forall2_set (fun a => le_refl a) row p.x.toNat v_old v_new hv hinc)
  · cases hcell

/-- C9: increasing the cost of any single cell never decreases the returned
minimum cost — if the search succeeds on a grid of positive cell costs, it
still succeeds after a single cell is increased, with a cost at least the
original one. -/
theorem claim9_single_cell_monotone (g : Grid Nat) (ultra_crucible : Bool)
    (p : Coord) (v_old v_new : Nat) (m : Nat)
    (hpos : ∀ c v, g.get c = some v → 1 ≤ v)
    (hcell : g.get p = some v_old) (hinc : v_old ≤ v_new)
    (hm : shortest_path g ultra_crucible = .found m) :
    ∃ m', shortest_path (update_cell g p v_new) ultra_crucible = .found m' ∧ m ≤ m' := by
  have hle : grid_le g (update_cell g p v_new) := grid_le_update_cell hcell hinc
  have hpos' : ∀ c v, (update_cell g p v_new).get c = some v → 1 ≤ v := by
    intro c v hv
    obtain ⟨w, hw, hwle⟩ := grid_le_get_some hle hv
    exact le_trans (hpos c w hw) hwle
  have hspec := shortest_path_spec g ultra_crucible hpos
  have hspec' := shortest_path_spec (update_cell g p v_new) ultra_crucible hpos'
  obtain ⟨⟨t0, ht01, ht02, ht03⟩, hmin⟩ := hspec.1 m hm
  cases hres' : shortest_path (update_cell g p v_new) ultra_crucible with
  | found mq =>
    obtain ⟨⟨t', ht1', ht2', ht3'⟩, -⟩ := hspec'.1 mq hres'
    refine ⟨mq, rfl, ?_⟩
    obtain ⟨ds, hds⟩ := reaches_iff_walk.mp ht1'
    obtain ⟨t, ht, htk, htc⟩ := walk_rel
      (fun c v' hv' => by
        obtain ⟨v, hv, hvle⟩ := grid_le_get_some hle hv'
        exact ⟨v, hv, fun a b hab => by omega⟩)
      ds State.initial State.initial t' rfl (le_refl 0) hds
    have htreach : Reaches g ultra_crucible t := reaches_iff_walk.mpr ⟨ds, ht⟩
    have htend : t.is_end_state (end_pos_of g) ultra_crucible = true := by
      rw [State.is_end_state_congr htk, end_pos_of_congr hle]
      exact ht2'
    have h1 := hmin t htreach htend
    omega
  | no_path =>
    exfalso
    obtain ⟨ds, hds⟩ := reaches_iff_walk.mp ht01
    obtain ⟨t', ht', htk', htc'⟩ := walk_rel
      (P := fun a b => b ≤ a)
      (fun c v' hv' => by
        obtain ⟨v, hv, hvle⟩ := grid_le_get_some_rev hle hv'
        exact ⟨v, hv, fun a b hab => by omega⟩)
      ds State.initial State.initial t0 rfl (le_refl 0) hds
    have htreach' : Reaches (update_cell g p v_new) ultra_crucible t' :=
      reaches_iff_walk.mpr ⟨ds, ht'⟩
    have htend' : t'.is_end_state (end_pos_of (update_cell g p v_new)) ultra_crucible =
        true := by
      rw [State.is_end_state_congr htk', ← end_pos_of_congr hle]
      exact ht02
    have h2 := hspec'.2 hres' t' htreach'
    rw [h2] at htend'
    cases htend'
  | out_of_fuel =>
    exact absurd hres' (shortest_path_ne_out_of_fuel _ ultra_crucible)

/-- Witness for C9: raising the cell (1, 0) of [[1, 2], [3, 4]] from 2 to 5
raises the basic-mode answer from 6 to 7. -/
theorem claim9_witness :
    shortest_path ⟨[[1, 2], [3, 4]]⟩ false = .found 6 ∧
    ∃ m', shortest_path (update_cell ⟨[[1, 2], [3, 4]]⟩ ⟨1, 0⟩ 5) false = .found m' ∧
      6 ≤ m' :=
  ⟨by decide, claim9_single_cell_monotone ⟨[[1, 2], [3, 4]]⟩ false ⟨1, 0⟩ 2 5 6
    (grid_cells_pos (by decide)) (by decide) (by decide) (by decide)⟩

end Day17
